import Mathlib

/-!
Shallow embedding of the nano-cache in-memory cache engine
(src/nano-cache.ts and src/nano-cache.js) and proofs about its
expiration, eviction, TTL and single-flight deduplication behaviour.

Modelling conventions:
* Timestamps and durations are `Int` (JS numbers used for `Date.now()`
  arithmetic); the expiry field `e = 0` is the "never expires" sentinel,
  exactly as in the source.
* The JS `Map` is an insertion-ordered association list
  `List (String × Entry V)`; `Map.set` replaces in place or appends,
  `Map.delete` removes, iteration is list order — the semantics JS
  guarantees and the eviction / cleanup loops rely on.
* `undefined` results are `Option.none`; stored values are always
  defined, so `get` returning `some` mirrors `!== undefined`.
* Side effects (the `disposeValue` hook and `_emit` events) are
  returned as explicit lists instead of being invoked.
* The only divergences between nano-cache.js and nano-cache.ts are in
  `has` and in the stale-if-error branch of `getOrSet`; both variants
  are embedded where they differ (suffix `_js` marks the js one).
-/

set_option autoImplicit false

namespace NanoCache

/-- A cache entry: `v` value, `e` expiry timestamp (0 = never),
`t` last touch timestamp (for LRU), `a` access count. -/
structure Entry (V : Type) where
  v : V
  e : Int
  t : Int
  a : Int
deriving DecidableEq, Repr

/-- The configuration options relevant to the verified behaviour
(`useClone`, `disposeValue` and the timer are modelled separately:
cloning is out of scope, the dispose hook and events are returned as
data). -/
structure Config where
  defaultTTL : Int
  maxSize : Int
  checkPeriod : Int
  allowStale : Bool
  staleWhileRevalidate : Int
  staleIfError : Int
deriving DecidableEq, Repr

/-- `NanoCache.DEFAULTS` from the source. -/
def DEFAULTS : Config :=
  { defaultTTL := 0, maxSize := 0, checkPeriod := 10000,
    allowStale := false, staleWhileRevalidate := 0, staleIfError := 0 }

/-- The key → entry map `_map`, as an insertion-ordered association list
(the iteration order of a JS `Map`). -/
abbrev Store (V : Type) := List (String × Entry V)

/-- `Map.prototype.get`: first (and, by key uniqueness, only) binding. -/
def mapGet {V : Type} : Store V → String → Option (Entry V)
  | [], _ => none
  | (k, en) :: rest, key => if k = key then some en else mapGet rest key

/-- `Map.prototype.set`: replace in place if the key is bound, else
append at the end (JS `Map` keeps the original insertion position on
overwrite). -/
def mapSet {V : Type} : Store V → String → Entry V → Store V
  | [], key, en => [(key, en)]
  | (k, e0) :: rest, key, en =>
      if k = key then (key, en) :: rest else (k, e0) :: mapSet rest key en

/-- `Map.prototype.delete`: drop the binding of the key. -/
def mapDelete {V : Type} : Store V → String → Store V
  | [], _ => []
  | (k, e0) :: rest, key =>
      if k = key then rest else (k, e0) :: mapDelete rest key

/-- In-place mutation of the entry bound to a key (JS mutates the entry
object stored in the map). -/
def mapUpdate {V : Type} : Store V → String → (Entry V → Entry V) → Store V
  | [], _, _ => []
  | (k, e0) :: rest, key, f =>
      if k = key then (k, f e0) :: rest else (k, e0) :: mapUpdate rest key f

/-- An invocation of the `disposeValue` hook: the source calls
`disposeValue(entry.v, key, reason)`. -/
structure DisposeCall (V : Type) where
  value : V
  key : String
  reason : String
deriving DecidableEq, Repr

/-- An emitted event: `_emit(event, key, value, reason)` delivers
`{key, value, reason}` to the observers of `kind`. -/
structure Event (V : Type) where
  kind : String
  key : String
  value : V
  reason : String
deriving DecidableEq, Repr

/-- `_touch(entry)`: `entry.t = Date.now(); entry.a += 1`. -/
def touchEntry {V : Type} (now : Int) (en : Entry V) : Entry V :=
  { en with t := now, a := en.a + 1 }

/-- The eviction score computed in `_evictLRU`:
`entry.t * 1_000_000 - entry.a`. -/
def score {V : Type} (en : Entry V) : Int :=
  en.t * 1000000 - en.a

/-- The scan loop of `_evictLRU`: fold over the store in iteration
order keeping the first strictly smallest score (`oldestScore` starts
at `Infinity`, so the first entry always replaces the empty
accumulator; later entries win only with `score < oldestScore`). -/
def victimScan {V : Type} : Store V → Option (String × Entry V) → Option (String × Entry V)
  | [], best => best
  | (k, en) :: rest, none => victimScan rest (some (k, en))
  | (k, en) :: rest, some (bk, ben) =>
      if score en < score ben then victimScan rest (some (k, en))
      else victimScan rest (some (bk, ben))

/-- `_evictLRU()`: find the minimum-score victim, remove it, call the
dispose hook with reason `"lru"` and emit an `"evict"` event with
reason `"lru"`. Returns the new store plus the effect lists. -/
def evictLRU {V : Type} (st : Store V) : Store V × List (DisposeCall V) × List (Event V) :=
  match victimScan st none with
  | none => (st, [], [])
  | some (oldestKey, _) =>
    match mapGet st oldestKey with
    | none => (st, [], [])
    | some en =>
        (mapDelete st oldestKey,
         [{ value := en.v, key := oldestKey, reason := "lru" }],
         [{ kind := "evict", key := oldestKey, value := en.v, reason := "lru" }])

/-- `set(key, value, ttl)`: build the fresh entry
`{v, e := ttl > 0 ? now + ttl : 0, t := now, a := 0}`, store it, and if
the key is new, `maxSize > 0` and the size now exceeds `maxSize`, run
`_evictLRU` once. (`useClone` is modelled as the identity.) -/
def set {V : Type} (cfg : Config) (st : Store V) (key : String) (value : V)
    (ttl : Int) (now : Int) : Store V × List (DisposeCall V) × List (Event V) :=
  let exp : Int := if ttl > 0 then now + ttl else 0
  let entry : Entry V := { v := value, e := exp, t := now, a := 0 }
  let existed := (mapGet st key).isSome
  let st2 := mapSet st key entry
  if !existed ∧ cfg.maxSize > 0 ∧ (st2.length : Int) > cfg.maxSize then
    evictLRU st2
  else
    (st2, [], [])

/-- `get(key, {touch})`: classify the entry against the current time
and the stale options; serving branches optionally `_touch` the entry
in place, the dead/absent branches leave the store untouched and
return `undefined`. Returns the result and the (possibly touched)
store. -/
def get {V : Type} (cfg : Config) (st : Store V) (key : String) (now : Int)
    (touch : Bool) : Option V × Store V :=
  match mapGet st key with
  | none => (none, st)
  | some entry =>
    let expired := entry.e ≠ 0 ∧ entry.e < now
    if expired then
      if cfg.allowStale then
        (some entry.v, if touch then mapUpdate st key (touchEntry now) else st)
      else if cfg.staleWhileRevalidate > 0 ∧ now - entry.e < cfg.staleWhileRevalidate then
        (some entry.v, if touch then mapUpdate st key (touchEntry now) else st)
      else
        (none, st)
    else
      (some entry.v, if touch then mapUpdate st key (touchEntry now) else st)

/-- `peek(key)` = `get(key, {touch: false})`. -/
def peek {V : Type} (cfg : Config) (st : Store V) (key : String) (now : Int) :
    Option V × Store V :=
  get cfg st key now false

/-- `has(key)` as written in nano-cache.ts: present and
(never expires or not yet past expiry) is `true`; an expired entry
answers `allowStale`. -/
def has {V : Type} (cfg : Config) (st : Store V) (key : String) (now : Int) : Bool :=
  match mapGet st key with
  | none => false
  | some entry =>
      if entry.e = 0 ∨ entry.e ≥ now then true else cfg.allowStale

/-- `has(key)` as written in nano-cache.js: identical except the last
line returns `!this.opts.allowStale`, the negation of the ts variant. -/
def has_js {V : Type} (cfg : Config) (st : Store V) (key : String) (now : Int) : Bool :=
  match mapGet st key with
  | none => false
  | some entry =>
      if entry.e = 0 ∨ entry.e ≥ now then true else !cfg.allowStale

/-- The result of the one-argument `ttl(key)` call:
`null` | `Infinity` | a number of milliseconds. -/
inductive TtlResult
  | notFound
  | infinite
  | finite (ms : Int)
deriving DecidableEq, Repr

/-- `ttl(key)` (read form): `null` if absent, `Infinity` if `e = 0`,
else `remaining > 0 ? remaining : 0`. -/
def ttlGet {V : Type} (st : Store V) (key : String) (now : Int) : TtlResult :=
  match mapGet st key with
  | none => TtlResult.notFound
  | some entry =>
      if entry.e = 0 then TtlResult.infinite
      else
        let remaining := entry.e - now
        if remaining > 0 then TtlResult.finite remaining else TtlResult.finite 0

/-- `ttl(key, newTTL)` (write form): mutate
`entry.e = newTTL > 0 ? now + newTTL : 0`; no-op when absent. -/
def ttlSet {V : Type} (st : Store V) (key : String) (newTTL : Int) (now : Int) : Store V :=
  match mapGet st key with
  | none => st
  | some _ =>
      mapUpdate st key (fun en => { en with e := if newTTL > 0 then now + newTTL else 0 })

/-- `del(key)`: dispose with reason `"delete"` and remove, no-op when
absent. -/
def del {V : Type} (st : Store V) (key : String) : Store V × List (DisposeCall V) :=
  match mapGet st key with
  | none => (st, [])
  | some en => (mapDelete st key, [{ value := en.v, key := key, reason := "delete" }])

/-- `_cleanup()` (the reaper sweep, with the default unlimited
`limit`): walk the map in iteration order; every entry with
`e ≠ 0 ∧ e < now` is disposed with reason `"expire"`, deleted, and an
`"expire"` event with reason `"ttl"` is emitted. -/
def cleanup {V : Type} (st : Store V) (now : Int) :
    Store V × List (DisposeCall V) × List (Event V) :=
  match st with
  | [] => ([], [], [])
  | (k, en) :: rest =>
    let r := cleanup rest now
    if en.e ≠ 0 ∧ en.e < now then
      (r.1,
       { value := en.v, key := k, reason := "expire" } :: r.2.1,
       { kind := "expire", key := k, value := en.v, reason := "ttl" } :: r.2.2)
    else
      ((k, en) :: r.1, r.2.1, r.2.2)

/-!
### Single-flight coordinator (`getOrSet`)

JS concurrency is cooperative: each `getOrSet` call runs its
synchronous prefix (the `get`, the `_pending` lookup and, on a double
miss, the loader invocation plus registration of the new promise)
atomically, and the `then`/`catch` handler of the promise later runs
atomically when the loader settles. We model the per-key state as the
store plus the optional id of the in-flight promise for the key, and
count loader invocations; promise ids are allocated from the
invocation counter, so "joined pid" means the caller awaits the
promise created by invocation `pid`.
-/

/-- Per-key single-flight state: the store, the pending promise for
the key (`_pending.get(key)`), and how many times the loader has been
invoked. -/
structure SFState (V : Type) where
  store : Store V
  pending : Option Nat
  invocations : Nat
deriving DecidableEq, Repr

/-- What a `getOrSet` call's synchronous prefix produces: an immediate
cache hit, or joining (awaiting) the promise with the given id. -/
inductive StartOutcome (V : Type)
  | hit (v : V)
  | joined (pid : Nat)
deriving DecidableEq, Repr

/-- How a promise settles for its waiters: a resolved value, or the
loader's failure re-thrown. -/
inductive Resolution (V : Type)
  | value (v : V)
  | failure
deriving DecidableEq, Repr

/-- The synchronous prefix of `getOrSet(key, loader, ttl)`:
`get(key)`; on a hit return it; otherwise reuse the pending promise
for the key, or invoke the loader once and register a fresh promise. -/
def getOrSetStart {V : Type} (cfg : Config) (key : String) (now : Int)
    (s : SFState V) : SFState V × StartOutcome V :=
  match get cfg s.store key now true with
  | (some v, st2) => ({ s with store := st2 }, StartOutcome.hit v)
  | (none, st2) =>
    match s.pending with
    | some pid => ({ s with store := st2 }, StartOutcome.joined pid)
    | none =>
        ({ store := st2, pending := some s.invocations,
           invocations := s.invocations + 1 },
         StartOutcome.joined s.invocations)

/-- A wave of concurrent `getOrSet` calls on one key: the event loop
serializes their synchronous prefixes; `times` gives each call's
`Date.now()`. Returns the final state and each call's outcome in
order. -/
def startCalls {V : Type} (cfg : Config) (key : String) (s : SFState V) :
    List Int → SFState V × List (StartOutcome V)
  | [] => (s, [])
  | now :: rest =>
    let r1 := getOrSetStart cfg key now s
    let r2 := startCalls cfg key r1.1 rest
    (r2.1, r1.2 :: r2.2)

/-- The success handler of the in-flight promise:
`set(key, val, ttl); _pending.delete(key); return val`. All waiters of
the promise receive the returned resolution. -/
def settleOk {V : Type} (cfg : Config) (key : String) (ttl : Int) (now : Int)
    (s : SFState V) (val : V) : SFState V × Resolution V :=
  ({ store := (set cfg s.store key val ttl now).1, pending := none,
     invocations := s.invocations },
   Resolution.value val)

/-- The failure handler as written in nano-cache.ts:
`_pending.delete(key)`, then if `staleIfError > 0` and the map still
holds an entry with `now - e < staleIfError`, resolve with its stored
value, else re-throw. -/
def settleErr {V : Type} (cfg : Config) (key : String) (now : Int)
    (s : SFState V) : SFState V × Resolution V :=
  let s2 : SFState V := { s with pending := none }
  if cfg.staleIfError > 0 then
    match mapGet s.store key with
    | some oldEntry =>
        if now - oldEntry.e < cfg.staleIfError then (s2, Resolution.value oldEntry.v)
        else (s2, Resolution.failure)
    | none => (s2, Resolution.failure)
  else (s2, Resolution.failure)

/-- The failure handler as written in nano-cache.js: it reads the old
value through `peek` (so the entry must be alive or stale-servable
under `get`'s classification) and compares
`now - (map.get(key)?.e || 0)` against the window. -/
def settleErrJs {V : Type} (cfg : Config) (key : String) (now : Int)
    (s : SFState V) : SFState V × Resolution V :=
  let s2 : SFState V := { s with pending := none }
  if cfg.staleIfError > 0 then
    match (peek cfg s.store key now).1 with
    | some old =>
        let eVal : Int := match mapGet s.store key with
          | some en => en.e
          | none => 0
        if now - eVal < cfg.staleIfError then (s2, Resolution.value old)
        else (s2, Resolution.failure)
    | none => (s2, Resolution.failure)
  else (s2, Resolution.failure)

/-!
### Basic lemmas about the embedded `Map` operations
-/

theorem mapGet_mapSet_self {V : Type} (st : Store V) (key : String) (en : Entry V) :
    mapGet (mapSet st key en) key = some en := by
  induction st with
  | nil => simp [mapGet, mapSet]
  | cons hd tl ih =>
      obtain ⟨k, e0⟩ := hd
      by_cases hk : k = key
      · simp [mapGet, mapSet, hk]
      · simp [mapGet, mapSet, hk, ih]

theorem length_mapSet_isSome {V : Type} (st : Store V) (key : String) (en : Entry V)
    (h : (mapGet st key).isSome) : (mapSet st key en).length = st.length := by
  induction st with
  | nil => simp [mapGet] at h
  | cons hd tl ih =>
      obtain ⟨k, e0⟩ := hd
      by_cases hk : k = key
      · simp [mapSet, hk]
      · simp only [mapGet, hk, if_false, if_neg hk] at h
        simp [mapSet, hk, ih h]

theorem length_mapSet_none {V : Type} (st : Store V) (key : String) (en : Entry V)
    (h : mapGet st key = none) : (mapSet st key en).length = st.length + 1 := by
  induction st with
  | nil => simp [mapSet]
  | cons hd tl ih =>
      obtain ⟨k, e0⟩ := hd
      by_cases hk : k = key
      · simp [mapGet, hk] at h
      · simp only [mapGet, hk, if_neg hk] at h
        simp [mapSet, hk, ih h]

theorem length_mapUpdate {V : Type} (st : Store V) (key : String) (f : Entry V → Entry V) :
    (mapUpdate st key f).length = st.length := by
  induction st with
  | nil => simp [mapUpdate]
  | cons hd tl ih =>
      obtain ⟨k, e0⟩ := hd
      by_cases hk : k = key
      · simp [mapUpdate, hk]
      · simp [mapUpdate, hk, ih]

theorem mapGet_mapUpdate_self {V : Type} (st : Store V) (key : String)
    (f : Entry V → Entry V) :
    mapGet (mapUpdate st key f) key = (mapGet st key).map f := by
  induction st with
  | nil => simp [mapGet, mapUpdate]
  | cons hd tl ih =>
      obtain ⟨k, e0⟩ := hd
      by_cases hk : k = key
      · simp [mapGet, mapUpdate, hk]
      · simp [mapGet, mapUpdate, hk, ih]

theorem length_mapDelete_le {V : Type} (st : Store V) (key : String) :
    (mapDelete st key).length ≤ st.length := by
  induction st with
  | nil => simp [mapDelete]
  | cons hd tl ih =>
      obtain ⟨k, e0⟩ := hd
      by_cases hk : k = key
      · simp [mapDelete, hk]
      · simp only [mapDelete, if_neg hk, List.length_cons]
        omega

theorem length_mapDelete_isSome {V : Type} (st : Store V) (key : String)
    (h : (mapGet st key).isSome) : (mapDelete st key).length + 1 = st.length := by
  induction st with
  | nil => simp [mapGet] at h
  | cons hd tl ih =>
      obtain ⟨k, e0⟩ := hd
      by_cases hk : k = key
      · simp [mapDelete, hk]
      · simp only [mapGet, if_neg hk] at h
        simp only [mapDelete, if_neg hk, List.length_cons]
        have h2 := ih h
        omega

theorem mapGet_isSome_of_mem {V : Type} (st : Store V) (k : String) (en : Entry V)
    (h : (k, en) ∈ st) : (mapGet st k).isSome := by
  induction st with
  | nil => simp at h
  | cons hd tl ih =>
      obtain ⟨k0, e0⟩ := hd
      by_cases hk : k0 = k
      · simp [mapGet, hk]
      · simp only [mapGet, if_neg hk]
        rcases List.mem_cons.mp h with h1 | h1
        · exact absurd (congrArg Prod.fst h1).symm hk
        · exact ih h1

theorem mapGet_of_mem_nodup {V : Type} (st : Store V) (k : String) (en : Entry V)
    (hnd : (st.map Prod.fst).Nodup) (h : (k, en) ∈ st) : mapGet st k = some en := by
  induction st with
  | nil => simp at h
  | cons hd tl ih =>
      obtain ⟨k0, e0⟩ := hd
      simp only [List.map_cons, List.nodup_cons] at hnd
      rcases List.mem_cons.mp h with h1 | h1
      · obtain ⟨hk, he⟩ := Prod.mk.injEq .. ▸ h1.symm
        simp [mapGet, hk.symm, he.symm]
      · have hk : k0 ≠ k := by
          intro hc
          exact hnd.1 (hc ▸ List.mem_map_of_mem Prod.fst h1)
        simp only [mapGet, if_neg hk]
        exact ih hnd.2 h1

/-!
### Lemmas about the eviction scan
-/

theorem victimScan_acc_isSome {V : Type} (l : Store V) (p : String × Entry V) :
    (victimScan l (some p)).isSome := by
  induction l generalizing p with
  | nil => simp [victimScan]
  | cons hd tl ih =>
      obtain ⟨k, en⟩ := hd
      obtain ⟨bk, ben⟩ := p
      simp only [victimScan]
      split <;> exact ih _

theorem victimScan_isSome {V : Type} (l : Store V) (h : l ≠ []) :
    (victimScan l none).isSome := by
  match l with
  | [] => exact absurd rfl h
  | (k, en) :: tl => exact victimScan_acc_isSome tl (k, en)

theorem victimScan_mem {V : Type} (l : Store V)
    (b : Option (String × Entry V)) (p : String × Entry V)
    (h : victimScan l b = some p) : p ∈ l ∨ b = some p := by
  induction l generalizing b with
  | nil => simp [victimScan] at h; simp [h]
  | cons hd tl ih =>
      obtain ⟨k, en⟩ := hd
      match b with
      | none =>
          rcases ih (some (k, en)) h with h1 | h1
          · exact Or.inl (List.mem_cons_of_mem _ h1)
          · exact Or.inl (List.mem_cons.mpr (Or.inl (Option.some.inj h1).symm))
      | some (bk, ben) =>
          simp only [victimScan] at h
          split at h
          · rcases ih _ h with h1 | h1
            · exact Or.inl (List.mem_cons_of_mem _ h1)
            · exact Or.inl (List.mem_cons.mpr (Or.inl (Option.some.inj h1).symm))
          · rcases ih _ h with h1 | h1
            · exact Or.inl (List.mem_cons_of_mem _ h1)
            · exact Or.inr h1

theorem victimScan_min {V : Type} (l : Store V)
    (b : Option (String × Entry V)) (p : String × Entry V)
    (h : victimScan l b = some p) :
    (∀ q ∈ l, score p.2 ≤ score q.2) ∧ (∀ bp, b = some bp → score p.2 ≤ score bp.2) := by
  induction l generalizing b with
  | nil =>
      simp only [victimScan] at h
      refine ⟨by simp, ?_⟩
      intro bp hbp
      rw [h] at hbp
      simp [Option.some.inj hbp]
  | cons hd tl ih =>
      obtain ⟨k, en⟩ := hd
      match b with
      | none =>
          obtain ⟨hall, hacc⟩ := ih (some (k, en)) h
          refine ⟨?_, by simp⟩
          intro q hq
          rcases List.mem_cons.mp hq with h1 | h1
          · exact h1 ▸ hacc (k, en) rfl
          · exact hall q h1
      | some (bk, ben) =>
          simp only [victimScan] at h
          split at h
          · rename_i hlt
            obtain ⟨hall, hacc⟩ := ih _ h
            constructor
            · intro q hq
              rcases List.mem_cons.mp hq with h1 | h1
              · exact h1 ▸ hacc (k, en) rfl
              · exact hall q h1
            · intro bp hbp
              have hb : (bk, ben) = bp := Option.some.inj hbp
              subst hb
              have h5 : score p.2 ≤ score en := hacc (k, en) rfl
              show score p.2 ≤ score ben
              omega
          · rename_i hlt
            obtain ⟨hall, hacc⟩ := ih _ h
            constructor
            · intro q hq
              rcases List.mem_cons.mp hq with h1 | h1
              · have h5 : score p.2 ≤ score ben := hacc (bk, ben) rfl
                have h4 : score q.2 = score en := by rw [h1]
                omega
              · exact hall q h1
            · intro bp hbp
              exact hacc bp hbp

/-!
### The expiration classification of `get` (read path)
-/

/-- The Expiration Policy classification from the spec, section 4.2:
an entry is Alive (never expires or expiry not past) or Stale-servable
(expired, and `allowStale` is set or within the stale-while-revalidate
window). Written from the spec wording for comparison with the code
paths. -/
def AliveOrStaleServable {V : Type} (cfg : Config) (en : Entry V) (now : Int) : Prop :=
  (en.e = 0 ∨ now ≤ en.e) ∨
  (en.e ≠ 0 ∧ en.e < now ∧
    (cfg.allowStale = true ∨
     (cfg.staleWhileRevalidate > 0 ∧ now - en.e < cfg.staleWhileRevalidate)))

instance {V : Type} (cfg : Config) (en : Entry V) (now : Int) :
    Decidable (AliveOrStaleServable cfg en now) := by
  unfold AliveOrStaleServable
  infer_instance

theorem get_fst_eq {V : Type} (cfg : Config) (st : Store V) (key : String)
    (now : Int) (touch : Bool) :
    (get cfg st key now touch).1 =
      match mapGet st key with
      | none => none
      | some en => if AliveOrStaleServable cfg en now then some en.v else none := by
  cases hm : mapGet st key with
  | none => simp [get, hm]
  | some en =>
      simp only [get, hm]
      by_cases h1 : en.e ≠ 0 ∧ en.e < now
      · rw [if_pos h1]
        by_cases h2 : cfg.allowStale = true
        · have hs : AliveOrStaleServable cfg en now := by
            unfold AliveOrStaleServable
            exact Or.inr ⟨h1.1, h1.2, Or.inl h2⟩
          rw [if_pos h2]
          simp [hs]
        · rw [if_neg h2]
          by_cases h3 : cfg.staleWhileRevalidate > 0 ∧ now - en.e < cfg.staleWhileRevalidate
          · have hs : AliveOrStaleServable cfg en now := by
              unfold AliveOrStaleServable
              exact Or.inr ⟨h1.1, h1.2, Or.inr h3⟩
            rw [if_pos h3]
            simp [hs]
          · have hs : ¬ AliveOrStaleServable cfg en now := by
              unfold AliveOrStaleServable
              intro hs
              rcases hs with hs | hs
              · rcases hs with hs | hs
                · exact h1.1 hs
                · omega
              · rcases hs.2.2 with hs2 | hs2
                · exact h2 hs2
                · exact h3 hs2
            rw [if_neg h3]
            simp [hs]
      · have hs : AliveOrStaleServable cfg en now := by
          unfold AliveOrStaleServable
          left
          by_cases he : en.e = 0
          · exact Or.inl he
          · right
            by_cases hlt : en.e < now
            · exact absurd ⟨he, hlt⟩ h1
            · omega
        rw [if_neg h1]
        simp [hs]

theorem get_fst_some {V : Type} (cfg : Config) (st : Store V) (key : String)
    (now : Int) (touch : Bool) (en : Entry V) (hm : mapGet st key = some en) :
    (get cfg st key now touch).1 =
      if AliveOrStaleServable cfg en now then some en.v else none := by
  rw [get_fst_eq, hm]

theorem get_miss_store {V : Type} (cfg : Config) (st : Store V) (key : String)
    (now : Int) (touch : Bool) (h : (get cfg st key now touch).1 = none) :
    (get cfg st key now touch).2 = st := by
  cases hm : mapGet st key with
  | none => simp [get, hm]
  | some en =>
      simp only [get, hm] at h ⊢
      by_cases h1 : en.e ≠ 0 ∧ en.e < now
      · rw [if_pos h1] at h ⊢
        by_cases h2 : cfg.allowStale = true
        · rw [if_pos h2] at h; simp at h
        · rw [if_neg h2] at h ⊢
          by_cases h3 : cfg.staleWhileRevalidate > 0 ∧ now - en.e < cfg.staleWhileRevalidate
          · rw [if_pos h3] at h; simp at h
          · rw [if_neg h3]
      · rw [if_neg h1] at h; simp at h

theorem get_snd_length {V : Type} (cfg : Config) (st : Store V) (key : String)
    (now : Int) (touch : Bool) :
    (get cfg st key now touch).2.length = st.length := by
  cases hm : mapGet st key with
  | none => simp [get, hm]
  | some en =>
      simp only [get, hm]
      by_cases h1 : en.e ≠ 0 ∧ en.e < now
      · rw [if_pos h1]
        by_cases h2 : cfg.allowStale = true
        · rw [if_pos h2]
          cases touch <;> simp [length_mapUpdate]
        · rw [if_neg h2]
          by_cases h3 : cfg.staleWhileRevalidate > 0 ∧ now - en.e < cfg.staleWhileRevalidate
          · rw [if_pos h3]
            cases touch <;> simp [length_mapUpdate]
          · rw [if_neg h3]
      · rw [if_neg h1]
        cases touch <;> simp [length_mapUpdate]

theorem get_value_of_servable {V : Type} (cfg : Config) (st : Store V) (key : String)
    (now : Int) (touch : Bool) (en : Entry V) (hm : mapGet st key = some en)
    (hs : AliveOrStaleServable cfg en now) :
    (get cfg st key now touch).1 = some en.v := by
  rw [get_fst_eq, hm]
  exact if_pos hs

theorem get_none_of_dead {V : Type} (cfg : Config) (st : Store V) (key : String)
    (now : Int) (touch : Bool) (en : Entry V) (hm : mapGet st key = some en)
    (hs : ¬ AliveOrStaleServable cfg en now) :
    (get cfg st key now touch).1 = none := by
  rw [get_fst_eq, hm]
  exact if_neg hs

/-!
### Lemmas about the reaper sweep
-/

theorem cleanup_length_le {V : Type} (st : Store V) (now : Int) :
    (cleanup st now).1.length ≤ st.length := by
  induction st with
  | nil => simp [cleanup]
  | cons hd tl ih =>
      obtain ⟨k, en⟩ := hd
      simp only [cleanup]
      split
      · simp only [List.length_cons]
        omega
      · simp only [List.length_cons]
        omega

theorem mapGet_cleanup_never {V : Type} (st : Store V) (now : Int) (key : String)
    (en : Entry V) (hm : mapGet st key = some en) (he : en.e = 0) :
    mapGet (cleanup st now).1 key = some en := by
  induction st with
  | nil => simp [mapGet] at hm
  | cons hd tl ih =>
      obtain ⟨k, e0⟩ := hd
      by_cases hk : k = key
      · subst hk
        simp only [mapGet, if_pos rfl] at hm
        have h0 : e0 = en := Option.some.inj hm
        subst h0
        simp only [cleanup]
        rw [if_neg (by intro hc; exact hc.1 he)]
        simp [mapGet]
      · simp only [mapGet, if_neg hk] at hm
        simp only [cleanup]
        split
        · exact ih hm
        · simp only [mapGet, if_neg hk]
          exact ih hm

/-!
### Lemmas about the single-flight wave
-/

theorem getOrSetStart_join {V : Type} (cfg : Config) (key : String) (now : Int)
    (s : SFState V) (pid : Nat) (hp : s.pending = some pid)
    (h : (get cfg s.store key now true).1 = none) :
    getOrSetStart cfg key now s = (s, StartOutcome.joined pid) := by
  obtain ⟨st0, p0, inv0⟩ := s
  simp only at hp h ⊢
  have hsnd := get_miss_store cfg st0 key now true h
  rcases hg : get cfg st0 key now true with ⟨f, st2⟩
  rw [hg] at h hsnd
  simp only at h hsnd
  subst h
  subst hsnd
  simp [getOrSetStart, hg, hp]

theorem getOrSetStart_fresh {V : Type} (cfg : Config) (key : String) (now : Int)
    (s : SFState V) (hp : s.pending = none)
    (h : (get cfg s.store key now true).1 = none) :
    getOrSetStart cfg key now s =
      ({ store := s.store, pending := some s.invocations,
         invocations := s.invocations + 1 },
       StartOutcome.joined s.invocations) := by
  have hsnd := get_miss_store cfg s.store key now true h
  rcases hg : get cfg s.store key now true with ⟨f, st2⟩
  rw [hg] at h hsnd
  simp only at h hsnd
  subst h
  subst hsnd
  simp [getOrSetStart, hg, hp]

theorem startCalls_joined {V : Type} (cfg : Config) (key : String) (s : SFState V)
    (pid : Nat) (ts : List Int) (hp : s.pending = some pid)
    (hmiss : ∀ t ∈ ts, (get cfg s.store key t true).1 = none) :
    startCalls cfg key s ts = (s, ts.map fun _ => StartOutcome.joined pid) := by
  induction ts with
  | nil => simp [startCalls]
  | cons t rest ih =>
      have h1 := getOrSetStart_join cfg key t s pid hp (hmiss t (List.mem_cons_self t rest))
      simp only [startCalls, h1]
      rw [ih (fun u hu => hmiss u (List.mem_cons_of_mem t hu))]
      simp

/-!
### Claim theorems
-/

/-- C1: for every set of concurrent `getOrSet` (computeIfAbsent) calls on the
same key, with no cached value for the key (each call's initial `get` misses)
and no completed write in between (only the calls' synchronous prefixes run,
serialized by the event loop), the loader is invoked exactly once and every
caller joins the one promise created by that single invocation — so all
callers resolve to that promise's unique resolution, the loaded value or the
same failure-derived fallback. -/
theorem getOrSet_single_flight {V : Type} (cfg : Config) (key : String)
    (s0 : SFState V) (ts : List Int)
    (hp : s0.pending = none) (hne : ts ≠ [])
    (hmiss : ∀ t ∈ ts, (get cfg s0.store key t true).1 = none) :
    (startCalls cfg key s0 ts).2 = ts.map (fun _ => StartOutcome.joined s0.invocations)
    ∧ (startCalls cfg key s0 ts).1.invocations = s0.invocations + 1
    ∧ (startCalls cfg key s0 ts).1.pending = some s0.invocations
    ∧ (startCalls cfg key s0 ts).1.store = s0.store := by
  match ts, hne with
  | t :: rest, _ =>
    have h1 := getOrSetStart_fresh cfg key t s0 hp (hmiss t (List.mem_cons_self t rest))
    have hrest : ∀ u ∈ rest, (get cfg s0.store key u true).1 = none :=
      fun u hu => hmiss u (List.mem_cons_of_mem t hu)
    have h2 := startCalls_joined cfg key
      ({ store := s0.store, pending := some s0.invocations,
         invocations := s0.invocations + 1 } : SFState V)
      s0.invocations rest rfl hrest
    simp only [startCalls, h1, h2]
    simp

/-- Witness for C1: three concurrent calls at time 100 on key "k" against an
empty cache all join promise 0 and the loader runs once. -/
theorem getOrSet_single_flight_witness :
    (startCalls DEFAULTS "k" (⟨[], none, 0⟩ : SFState Int) [100, 100, 100]).2
        = [StartOutcome.joined 0, StartOutcome.joined 0, StartOutcome.joined 0]
    ∧ (startCalls DEFAULTS "k" (⟨[], none, 0⟩ : SFState Int) [100, 100, 100]).1.invocations = 1 := by
  have h := getOrSet_single_flight DEFAULTS "k" (⟨[], none, 0⟩ : SFState Int)
    [100, 100, 100] rfl (by decide) (by decide)
  exact ⟨by simpa using h.1, by simpa using h.2.1⟩

/-- C3: with a stale-while-revalidate window w > 0 and allowStale disabled,
an entry written with ttl t > 0 (no capacity pressure) is returned by `read`
at exactly the times strictly before expiresAt + w — alive until expiresAt,
served stale afterwards — and is not found at and after expiresAt + w. -/
theorem get_stale_while_revalidate {V : Type} (cfg : Config) (st : Store V)
    (key : String) (v : V) (t now0 now : Int)
    (hAS : cfg.allowStale = false) (hw : cfg.staleWhileRevalidate > 0)
    (hmax : cfg.maxSize = 0) (ht : t > 0) (h0 : 0 ≤ now0) :
    (get cfg (set cfg st key v t now0).1 key now true).1 = some v
      ↔ now < now0 + t + cfg.staleWhileRevalidate := by
  have hset : (set cfg st key v t now0).1 = mapSet st key ⟨v, now0 + t, now0, 0⟩ := by
    simp only [set, if_pos ht]
    rw [if_neg]
    intro hc
    rw [hmax] at hc
    exact absurd hc.2.1 (by norm_num)
  rw [hset]
  have hm := mapGet_mapSet_self st key (⟨v, now0 + t, now0, 0⟩ : Entry V)
  rw [get_fst_some cfg _ key now true _ hm]
  constructor
  · intro hsv
    by_cases hs : AliveOrStaleServable cfg (⟨v, now0 + t, now0, 0⟩ : Entry V) now
    · unfold AliveOrStaleServable at hs
      simp only at hs
      rcases hs with hs | hs
      · omega
      · rcases hs.2.2 with h4 | h4
        · rw [hAS] at h4; exact absurd h4 (by simp)
        · omega
    · rw [if_neg hs] at hsv
      exact absurd hsv (by simp)
  · intro hlt
    have hs : AliveOrStaleServable cfg (⟨v, now0 + t, now0, 0⟩ : Entry V) now := by
      unfold AliveOrStaleServable
      simp only
      by_cases hpast : now0 + t < now
      · exact Or.inr ⟨by omega, hpast, Or.inr ⟨hw, by omega⟩⟩
      · exact Or.inl (Or.inr (by omega))
    rw [if_pos hs]

/-- Witness for C3, mirroring the spec example ttl = 50, swr = 200 written at
time 0: the value is served at t = 100 (stale) because 100 < 250, and the
instantiation at t = 260 is refuted since 260 ≥ 250. -/
theorem get_stale_while_revalidate_witness :
    ((get { DEFAULTS with staleWhileRevalidate := 200 }
        (set { DEFAULTS with staleWhileRevalidate := 200 } ([] : Store Int) "k" 7 50 0).1
        "k" 100 true).1 = some 7 ↔ (100 : Int) < 0 + 50 + 200)
    ∧ ((get { DEFAULTS with staleWhileRevalidate := 200 }
        (set { DEFAULTS with staleWhileRevalidate := 200 } ([] : Store Int) "k" 7 50 0).1
        "k" 260 true).1 = some 7 ↔ (260 : Int) < 0 + 50 + 200) := by
  constructor
  · exact get_stale_while_revalidate { DEFAULTS with staleWhileRevalidate := 200 }
      ([] : Store Int) "k" 7 50 0 100 rfl (by decide) rfl (by decide) (by decide)
  · exact get_stale_while_revalidate { DEFAULTS with staleWhileRevalidate := 200 }
      ([] : Store Int) "k" 7 50 0 260 rfl (by decide) rfl (by decide) (by decide)

/-- C2 counterexample: the claim (exists ↔ Alive-or-Stale-servable, the
classification read uses) is false on the code for both variants of `has`.
With allowStale off and an SWR window of 200, the entry with e = 50 at
now = 100 is stale-servable and read serves it, yet ts `has` answers false;
with allowStale on, the same expired entry is served by read, yet js `has`
answers false. -/
theorem has_counterexample :
    (let cfg1 : Config := { DEFAULTS with staleWhileRevalidate := 200 }
     let st : Store Int := [("k", ⟨7, 50, 0, 0⟩)]
     (get cfg1 st "k" 100 false).1 = some 7
       ∧ AliveOrStaleServable cfg1 (⟨7, 50, 0, 0⟩ : Entry Int) 100
       ∧ has cfg1 st "k" 100 = false)
    ∧ (let cfg2 : Config := { DEFAULTS with allowStale := true }
       let st : Store Int := [("k", ⟨7, 50, 0, 0⟩)]
       (get cfg2 st "k" 100 false).1 = some 7
         ∧ AliveOrStaleServable cfg2 (⟨7, 50, 0, 0⟩ : Entry Int) 100
         ∧ has_js cfg2 st "k" 100 = false) := by
  refine ⟨⟨by decide, ?_, by decide⟩, ⟨by decide, ?_, by decide⟩⟩
  · unfold AliveOrStaleServable
    right
    refine ⟨by decide, by decide, Or.inr ⟨by decide, by decide⟩⟩
  · unfold AliveOrStaleServable
    right
    exact ⟨by decide, by decide, Or.inl rfl⟩

/-- C2 amended: neither variant of `has` evaluates the stale-while-revalidate
window, so `has` is not the classification `read` uses. For an absent key
both answer false; for a present entry both answer true when it never
expires or its expiry is not past, and for an expired entry the ts variant
answers allowStale while the js variant answers its negation. -/
theorem has_amended {V : Type} (cfg : Config) (st : Store V) (key : String)
    (now : Int) :
    (mapGet st key = none → has cfg st key now = false ∧ has_js cfg st key now = false)
    ∧ (∀ en : Entry V, mapGet st key = some en →
        has cfg st key now
            = (decide (en.e = 0) || decide (now ≤ en.e) || cfg.allowStale)
        ∧ has_js cfg st key now
            = (decide (en.e = 0) || decide (now ≤ en.e) || !cfg.allowStale)) := by
  constructor
  · intro hm
    simp [has, has_js, hm]
  · intro en hm
    constructor
    · simp only [has, hm]
      by_cases h1 : en.e = 0 ∨ en.e ≥ now
      · rw [if_pos h1]
        rcases h1 with h1 | h1 <;> simp [h1]
      · rw [if_neg h1]
        push_neg at h1
        have h2 : ¬ en.e = 0 := h1.1
        have h3 : ¬ now ≤ en.e := by omega
        simp [h2, h3]
    · simp only [has_js, hm]
      by_cases h1 : en.e = 0 ∨ en.e ≥ now
      · rw [if_pos h1]
        rcases h1 with h1 | h1 <;> simp [h1]
      · rw [if_neg h1]
        push_neg at h1
        have h2 : ¬ en.e = 0 := h1.1
        have h3 : ¬ now ≤ en.e := by omega
        simp [h2, h3]

/-- Witness for C2's amended theorem: an expired entry (e = 50, now = 100)
with allowStale on answers true under ts `has` and false under js `has`. -/
theorem has_amended_witness :
    has { DEFAULTS with allowStale := true }
        [("k", (⟨7, 50, 0, 0⟩ : Entry Int))] "k" 100
      = (decide ((50 : Int) = 0) || decide ((100 : Int) ≤ 50) || true)
    ∧ has_js { DEFAULTS with allowStale := true }
        [("k", (⟨7, 50, 0, 0⟩ : Entry Int))] "k" 100
      = (decide ((50 : Int) = 0) || decide ((100 : Int) ≤ 50) || !true) := by
  exact (has_amended { DEFAULTS with allowStale := true }
    [("k", (⟨7, 50, 0, 0⟩ : Entry Int))] "k" 100).2 ⟨7, 50, 0, 0⟩ rfl

/-- C4 counterexample: overwriting key "k" whose entry has accessCount 5
yields a fresh entry with accessCount 0 — `set` does reset the access count
on replacement, contrary to the claim. -/
theorem set_replace_counterexample :
    (mapGet (set DEFAULTS [("k", (⟨7, 0, 0, 5⟩ : Entry Int))] "k" 9 0 10).1 "k").map Entry.a
        = some 0
    ∧ ¬ ((mapGet (set DEFAULTS [("k", (⟨7, 0, 0, 5⟩ : Entry Int))] "k" 9 0 10).1 "k").map Entry.a
        = some 5) := by decide

/-- C4 amended: a write on an existing key replaces the entry wholesale —
the new value and expiry are installed with lastTouch = now and accessCount
reset to 0 — and it does not invoke the disposal hook, emits no event, and
triggers no eviction (the size is unchanged). -/
theorem set_replace_amended {V : Type} (cfg : Config) (st : Store V) (key : String)
    (v : V) (ttl now : Int) (h : (mapGet st key).isSome) :
    mapGet (set cfg st key v ttl now).1 key
        = some ⟨v, if ttl > 0 then now + ttl else 0, now, 0⟩
    ∧ (set cfg st key v ttl now).2.1 = []
    ∧ (set cfg st key v ttl now).2.2 = []
    ∧ (set cfg st key v ttl now).1.length = st.length := by
  have hbody : set cfg st key v ttl now
      = (mapSet st key ⟨v, if ttl > 0 then now + ttl else 0, now, 0⟩, [], []) := by
    simp only [set, h]
    rw [if_neg]
    simp
  rw [hbody]
  refine ⟨mapGet_mapSet_self st key _, rfl, rfl, length_mapSet_isSome st key _ h⟩

/-- Witness for C4's amended theorem at the counterexample input. -/
theorem set_replace_amended_witness :
    mapGet (set DEFAULTS [("k", (⟨7, 0, 0, 5⟩ : Entry Int))] "k" 9 0 10).1 "k"
        = some ⟨9, if (0 : Int) > 0 then 10 + 0 else 0, 10, 0⟩
    ∧ (set DEFAULTS [("k", (⟨7, 0, 0, 5⟩ : Entry Int))] "k" 9 0 10).2.1 = []
    ∧ (set DEFAULTS [("k", (⟨7, 0, 0, 5⟩ : Entry Int))] "k" 9 0 10).2.2 = []
    ∧ (set DEFAULTS [("k", (⟨7, 0, 0, 5⟩ : Entry Int))] "k" 9 0 10).1.length
        = [("k", (⟨7, 0, 0, 5⟩ : Entry Int))].length :=
  set_replace_amended DEFAULTS [("k", (⟨7, 0, 0, 5⟩ : Entry Int))] "k" 9 0 10 rfl

/-- C5 counterexample: the js failure handler reads the old value through
`peek`, so with the default allowStale/SWR configuration an entry that is
merely within the stale-if-error window (e = 50 at now = 100, window 1000)
is not served: the failure propagates to the waiters even though the claim
says the stale value must be returned. (The ts handler serves it.) -/
theorem staleIfError_counterexample :
    (let cfg : Config := { DEFAULTS with staleIfError := 1000 }
     let s : SFState Int := ⟨[("k", ⟨7, 50, 0, 0⟩)], some 0, 1⟩
     mapGet s.store "k" = some ⟨7, 50, 0, 0⟩
     ∧ (100 : Int) - 50 < cfg.staleIfError
     ∧ (settleErrJs cfg "k" 100 s).2 = Resolution.failure
     ∧ (settleErr cfg "k" 100 s).2 = Resolution.value 7) := by decide

/-- C5 amended: on loader failure the in-flight marker is removed in every
case. The ts handler then resolves the single shared promise (hence every
waiter) with the stored value exactly when a stale-if-error window is
configured and the entry for the key satisfies now − expiresAt < window,
propagating the failure otherwise; the js handler additionally requires the
entry to be servable by `peek` — alive, allowStale, or inside the SWR
window — before applying the same window test. -/
theorem staleIfError_amended {V : Type} (cfg : Config) (key : String) (now : Int)
    (s : SFState V) :
    (settleErr cfg key now s).1.pending = none
    ∧ (settleErrJs cfg key now s).1.pending = none
    ∧ (∀ en : Entry V, mapGet s.store key = some en → cfg.staleIfError > 0 →
        now - en.e < cfg.staleIfError →
        (settleErr cfg key now s).2 = Resolution.value en.v)
    ∧ (∀ en : Entry V, mapGet s.store key = some en → cfg.staleIfError > 0 →
        ¬ (now - en.e < cfg.staleIfError) →
        (settleErr cfg key now s).2 = Resolution.failure)
    ∧ (mapGet s.store key = none → (settleErr cfg key now s).2 = Resolution.failure)
    ∧ (cfg.staleIfError ≤ 0 → (settleErr cfg key now s).2 = Resolution.failure)
    ∧ (∀ en : Entry V, mapGet s.store key = some en → cfg.staleIfError > 0 →
        AliveOrStaleServable cfg en now → now - en.e < cfg.staleIfError →
        (settleErrJs cfg key now s).2 = Resolution.value en.v)
    ∧ (∀ en : Entry V, mapGet s.store key = some en → cfg.staleIfError > 0 →
        ¬ AliveOrStaleServable cfg en now →
        (settleErrJs cfg key now s).2 = Resolution.failure) := by
  refine ⟨?_, ?_, ?_, ?_, ?_, ?_, ?_, ?_⟩
  · simp only [settleErr]
    split
    · split
      · split <;> rfl
      · rfl
    · rfl
  · simp only [settleErrJs]
    split
    · split
      · split <;> rfl
      · rfl
    · rfl
  · intro en hm hw hin
    simp only [settleErr]
    rw [if_pos hw]
    simp only [hm]
    rw [if_pos hin]
  · intro en hm hw hout
    simp only [settleErr]
    rw [if_pos hw]
    simp only [hm]
    rw [if_neg hout]
  · intro hm
    simp only [settleErr]
    split
    · simp [hm]
    · rfl
  · intro hw
    simp only [settleErr]
    rw [if_neg (by omega)]
  · intro en hm hw hs hin
    have hpeek : (peek cfg s.store key now).1 = some en.v :=
      get_value_of_servable cfg s.store key now false en hm hs
    simp only [settleErrJs]
    rw [if_pos hw]
    simp only [hpeek, hm]
    rw [if_pos hin]
  · intro en hm hw hs
    have hpeek : (peek cfg s.store key now).1 = none :=
      get_none_of_dead cfg s.store key now false en hm hs
    simp only [settleErrJs]
    rw [if_pos hw]
    simp only [hpeek]

/-- Witness for C5's amended theorem: the ts handler serves the stale value 7
for the window-eligible entry, and clears the in-flight marker. -/
theorem staleIfError_amended_witness :
    (settleErr { DEFAULTS with staleIfError := 1000 } "k" 100
        (⟨[("k", ⟨7, 50, 0, 0⟩)], some 0, 1⟩ : SFState Int)).1.pending = none
    ∧ (settleErr { DEFAULTS with staleIfError := 1000 } "k" 100
        (⟨[("k", ⟨7, 50, 0, 0⟩)], some 0, 1⟩ : SFState Int)).2
        = Resolution.value (⟨7, 50, 0, 0⟩ : Entry Int).v := by
  have h := staleIfError_amended { DEFAULTS with staleIfError := 1000 } "k" 100
    (⟨[("k", ⟨7, 50, 0, 0⟩)], some 0, 1⟩ : SFState Int)
  exact ⟨h.1, h.2.2.1 ⟨7, 50, 0, 0⟩ rfl (by decide) (by decide)⟩

/-- A TTL update never changes the number of entries. -/
theorem length_ttlSet {V : Type} (st : Store V) (key : String) (newTTL now : Int) :
    (ttlSet st key newTTL now).length = st.length := by
  cases hmg : mapGet st key with
  | none => simp [ttlSet, hmg]
  | some en => simp [ttlSet, hmg, length_mapUpdate]

/-- `_evictLRU` on a non-empty store removes exactly one entry. -/
theorem evictLRU_length {V : Type} (st : Store V) (h : st ≠ []) :
    (evictLRU st).1.length + 1 = st.length := by
  obtain ⟨p, hp⟩ := Option.isSome_iff_exists.mp (victimScan_isSome st h)
  obtain ⟨k, en⟩ := p
  have hmem : (k, en) ∈ st := by
    rcases victimScan_mem st none (k, en) hp with h1 | h1
    · exact h1
    · exact absurd h1 (by simp)
  have hgs : (mapGet st k).isSome := mapGet_isSome_of_mem st k en hmem
  obtain ⟨en2, hg2⟩ := Option.isSome_iff_exists.mp hgs
  have hres : (evictLRU st).1 = mapDelete st k := by
    simp [evictLRU, hp, hg2]
  rw [hres]
  exact length_mapDelete_isSome st k hgs

/-- C6 counterexample: two entries share lastTouch = 5; the claim says the
one with fewer accesses ("x", 0 accesses) scores lower and is evicted before
the more-accessed one, but the score subtracts the access count, so the
more-accessed "y" (3 accesses) scores lower and is the victim while "x"
survives. -/
theorem evictLRU_counterexample :
    (let st : Store Int := [("x", ⟨1, 0, 5, 0⟩), ("y", ⟨2, 0, 5, 3⟩)]
     score (⟨2, 0, 5, 3⟩ : Entry Int) < score (⟨1, 0, 5, 0⟩ : Entry Int)
     ∧ (evictLRU st).1 = [("x", ⟨1, 0, 5, 0⟩)]
     ∧ (evictLRU st).2.2 = [⟨"evict", "y", 2, "lru"⟩]) := by decide

/-- C6 amended: whenever eviction runs on a non-empty store (with the JS-Map
key uniqueness invariant), the removed entry is one minimizing
score = lastTouch * 1,000,000 − accessCount over all entries; among entries
sharing an identical lastTouch, an entry with MORE accesses has the lower
score and is evicted before one with fewer accesses. -/
theorem evictLRU_min_score {V : Type} (st : Store V) (h : st ≠ [])
    (hnd : (st.map Prod.fst).Nodup) :
    ∃ k en, (k, en) ∈ st
      ∧ (∀ q ∈ st, score en ≤ score q.2)
      ∧ (∀ q ∈ st, q.2.t = en.t → q.2.a ≤ en.a)
      ∧ evictLRU st = (mapDelete st k,
          [⟨en.v, k, "lru"⟩], [⟨"evict", k, en.v, "lru"⟩]) := by
  obtain ⟨p, hp⟩ := Option.isSome_iff_exists.mp (victimScan_isSome st h)
  obtain ⟨k, en⟩ := p
  have hmem : (k, en) ∈ st := by
    rcases victimScan_mem st none (k, en) hp with h1 | h1
    · exact h1
    · exact absurd h1 (by simp)
  have hmin : ∀ q ∈ st, score en ≤ score q.2 := (victimScan_min st none (k, en) hp).1
  have hget : mapGet st k = some en := mapGet_of_mem_nodup st k en hnd hmem
  refine ⟨k, en, hmem, hmin, ?_, ?_⟩
  · intro q hq hqt
    have h1 := hmin q hq
    unfold score at h1
    rw [hqt] at h1
    omega
  · simp [evictLRU, hp, hget]

/-- Witness for C6's amended theorem at the counterexample store. -/
theorem evictLRU_min_score_witness :
    ∃ k en, (k, en) ∈ ([("x", ⟨1, 0, 5, 0⟩), ("y", ⟨2, 0, 5, 3⟩)] : Store Int)
      ∧ (∀ q ∈ ([("x", ⟨1, 0, 5, 0⟩), ("y", ⟨2, 0, 5, 3⟩)] : Store Int),
          score en ≤ score q.2)
      ∧ (∀ q ∈ ([("x", ⟨1, 0, 5, 0⟩), ("y", ⟨2, 0, 5, 3⟩)] : Store Int),
          q.2.t = en.t → q.2.a ≤ en.a)
      ∧ evictLRU ([("x", ⟨1, 0, 5, 0⟩), ("y", ⟨2, 0, 5, 3⟩)] : Store Int)
          = (mapDelete ([("x", ⟨1, 0, 5, 0⟩), ("y", ⟨2, 0, 5, 3⟩)] : Store Int) k,
             [⟨en.v, k, "lru"⟩], [⟨"evict", k, en.v, "lru"⟩]) :=
  evictLRU_min_score ([("x", ⟨1, 0, 5, 0⟩), ("y", ⟨2, 0, 5, 3⟩)] : Store Int)
    (by decide) (by decide)

/-- C7: with maxEntries m > 0 and the store within capacity, a write leaves
the size ≤ m (a new key that lands at m + 1 synchronously evicts exactly one
entry before `set` returns), a write replacing an existing key never evicts
(the size is unchanged), and no other operation grows the store: read/touch
keeps the size, a TTL update keeps the size, delete and the reaper sweep
only shrink it. -/
theorem set_capacity_invariant {V : Type} (cfg : Config) (st : Store V)
    (key : String) (v : V) (ttl now newTTL : Int) (touch : Bool)
    (hm : cfg.maxSize > 0) (hsz : (st.length : Int) ≤ cfg.maxSize) :
    ((set cfg st key v ttl now).1.length : Int) ≤ cfg.maxSize
    ∧ ((mapGet st key).isSome → (set cfg st key v ttl now).1.length = st.length)
    ∧ (get cfg st key now touch).2.length = st.length
    ∧ (ttlSet st key newTTL now).length = st.length
    ∧ (mapDelete st key).length ≤ st.length
    ∧ (cleanup st now).1.length ≤ st.length := by
  have hrepl : ∀ h2 : (mapGet st key).isSome, (set cfg st key v ttl now).1.length = st.length := by
    intro h2
    exact (set_replace_amended cfg st key v ttl now h2).2.2.2
  refine ⟨?_, hrepl, get_snd_length cfg st key now touch, length_ttlSet st key newTTL now,
    length_mapDelete_le st key, cleanup_length_le st now⟩
  by_cases hex : (mapGet st key).isSome
  · rw [hrepl hex]
    exact hsz
  · have hnone : mapGet st key = none := Option.not_isSome_iff_eq_none.mp hex
    simp only [set, hnone, Option.isSome_none, Bool.not_false, eq_self_iff_true, true_and]
    generalize (if ttl > 0 then now + ttl else 0 : Int) = E
    have hlen2 : (mapSet st key (⟨v, E, now, 0⟩ : Entry V)).length = st.length + 1 :=
      length_mapSet_none st key _ hnone
    split
    · rename_i hcond
      have hne : mapSet st key (⟨v, E, now, 0⟩ : Entry V) ≠ [] := by
        intro hcnil
        rw [hcnil] at hlen2
        simp at hlen2
      have he := evictLRU_length (mapSet st key (⟨v, E, now, 0⟩ : Entry V)) hne
      rw [hlen2] at he
      omega
    · rename_i hcond
      show ((mapSet st key (⟨v, E, now, 0⟩ : Entry V)).length : Int) ≤ cfg.maxSize
      have hno : ¬ ((mapSet st key (⟨v, E, now, 0⟩ : Entry V)).length : Int) > cfg.maxSize :=
        fun hgt => hcond ⟨hm, hgt⟩
      omega

/-- Witness for C7 at a concrete input: capacity 2, store holding keys "a"
and "b", writing the new key "c". -/
theorem set_capacity_invariant_witness :
    ((set { DEFAULTS with maxSize := 2 }
        [("a", (⟨1, 0, 1, 0⟩ : Entry Int)), ("b", ⟨2, 0, 2, 0⟩)]
        "c" 3 0 5).1.length : Int) ≤ (2 : Int) := by
  have h := set_capacity_invariant { DEFAULTS with maxSize := 2 }
    [("a", (⟨1, 0, 1, 0⟩ : Entry Int)), ("b", ⟨2, 0, 2, 0⟩)]
    "c" 3 0 5 0 true (by decide) (by decide)
  exact h.1

/-- C8 counterexample: a dead entry still in the store (e = 5 in the past at
now = 10, default configuration, so read reports not-found) gets ttl = 0,
not the not-found sentinel. -/
theorem ttlGet_counterexample :
    (let st : Store Int := [("k", ⟨7, 5, 0, 0⟩)]
     (get DEFAULTS st "k" 10 false).1 = none
     ∧ ttlGet st "k" 10 = TtlResult.finite 0
     ∧ ttlGet st "k" 10 ≠ TtlResult.notFound) := by decide

/-- C8 amended: ttl(key) returns the not-found sentinel exactly when the key
is absent from the store — a dead entry still present is not not-found, it
reports a remaining lifetime of 0; the infinite sentinel when the entry
never expires; and otherwise the remaining lifetime clamped at zero,
max (expiresAt − now) 0, which is 0 rather than positive once expiry is
reached. -/
theorem ttlGet_amended {V : Type} (st : Store V) (key : String) (now : Int) :
    (ttlGet st key now = TtlResult.notFound ↔ mapGet st key = none)
    ∧ (∀ en : Entry V, mapGet st key = some en → en.e = 0 →
        ttlGet st key now = TtlResult.infinite)
    ∧ (∀ en : Entry V, mapGet st key = some en → en.e ≠ 0 →
        ttlGet st key now = TtlResult.finite (max (en.e - now) 0)) := by
  refine ⟨⟨?_, ?_⟩, ?_, ?_⟩
  · intro h
    cases hm : mapGet st key with
    | none => rfl
    | some en =>
        simp only [ttlGet, hm] at h
        split at h
        · exact absurd h (by simp)
        · split at h <;> exact absurd h (by simp)
  · intro hm
    simp [ttlGet, hm]
  · intro en hm he
    simp [ttlGet, hm, he]
  · intro en hm he
    simp only [ttlGet, hm]
    rw [if_neg he]
    by_cases hr : en.e - now > 0
    · rw [if_pos hr, max_eq_left (by omega)]
    · rw [if_neg hr, max_eq_right (by omega)]

/-- Witness for C8's amended theorem: applied to the dead-entry store of the
counterexample, giving remaining lifetime max (5 − 10) 0 = 0. -/
theorem ttlGet_amended_witness :
    ttlGet [("k", (⟨7, 5, 0, 0⟩ : Entry Int))] "k" 10
      = TtlResult.finite (max ((5 : Int) - 10) 0) :=
  (ttlGet_amended [("k", (⟨7, 5, 0, 0⟩ : Entry Int))] "k" 10).2.2
    ⟨7, 5, 0, 0⟩ rfl (by decide)

/-- C9: a write with ttl ≤ 0 — negative included, not only 0 — and a TTL
update with newTTL ≤ 0 store the never-expires sentinel e = 0; an entry with
e = 0 is classified Alive at every time: read serves it, has answers true,
and the reaper sweep never removes it. -/
theorem nonpositive_ttl_never_expires {V : Type} (cfg : Config) (st : Store V)
    (key : String) (v : V) (ttl newTTL now now2 : Int)
    (hmax : cfg.maxSize = 0) (h1 : ttl ≤ 0) (h2 : newTTL ≤ 0) :
    mapGet (set cfg st key v ttl now).1 key = some ⟨v, 0, now, 0⟩
    ∧ (∀ en : Entry V, mapGet st key = some en →
        mapGet (ttlSet st key newTTL now) key = some ⟨en.v, 0, en.t, en.a⟩)
    ∧ (∀ (st2 : Store V) (en : Entry V), mapGet st2 key = some en → en.e = 0 →
        (get cfg st2 key now2 false).1 = some en.v
        ∧ has cfg st2 key now2 = true
        ∧ mapGet (cleanup st2 now2).1 key = some en) := by
  refine ⟨?_, ?_, ?_⟩
  · have hc1 : ¬ (ttl > 0) := by omega
    have hbody : (set cfg st key v ttl now).1 = mapSet st key ⟨v, 0, now, 0⟩ := by
      simp [set, hc1, hmax]
    rw [hbody]
    exact mapGet_mapSet_self st key _
  · intro en hm
    have hc2 : ¬ (newTTL > 0) := by omega
    have hts : ttlSet st key newTTL now
        = mapUpdate st key (fun en2 => { en2 with e := if newTTL > 0 then now + newTTL else 0 }) := by
      simp only [ttlSet]
      simp only [hm]
    rw [hts, mapGet_mapUpdate_self, hm]
    simp [hc2]
  · intro st2 en hm he
    refine ⟨?_, ?_, mapGet_cleanup_never st2 now2 key en hm he⟩
    · exact get_value_of_servable cfg st2 key now2 false en hm
        (by unfold AliveOrStaleServable; exact Or.inl (Or.inl he))
    · simp [has, hm, he]

/-- Witness for C9: writing with ttl = −10 stores e = 0; the entry is served,
reported present, and survives the sweep at the much later time 10^9. -/
theorem nonpositive_ttl_never_expires_witness :
    mapGet (set DEFAULTS ([] : Store Int) "k" 5 (-10) 100).1 "k" = some ⟨5, 0, 100, 0⟩
    ∧ (get DEFAULTS [("k", (⟨5, 0, 100, 0⟩ : Entry Int))] "k" 1000000000 false).1 = some 5
    ∧ has DEFAULTS [("k", (⟨5, 0, 100, 0⟩ : Entry Int))] "k" 1000000000 = true
    ∧ mapGet (cleanup [("k", (⟨5, 0, 100, 0⟩ : Entry Int))] 1000000000).1 "k"
        = some ⟨5, 0, 100, 0⟩ := by
  have h := nonpositive_ttl_never_expires DEFAULTS ([] : Store Int) "k" 5 (-10) (-3)
    100 1000000000 rfl (by decide) (by decide)
  have h3 := h.2.2 [("k", (⟨5, 0, 100, 0⟩ : Entry Int))] ⟨5, 0, 100, 0⟩ rfl rfl
  exact ⟨h.1, h3.1, h3.2.1, h3.2.2⟩

/-- C10: every entry removed by the reaper sweep yields an expire event whose
payload reason is "ttl" while the disposal hook for the same removal receives
reason "expire" — the two reason strings for one expiration differ. The
dispose and event lists cover the same keys in the same order. -/
theorem cleanup_reasons {V : Type} (st : Store V) (now : Int) :
    ((cleanup st now).2.2.all fun ev => ev.kind == "expire" && ev.reason == "ttl") = true
    ∧ ((cleanup st now).2.1.all fun d => d.reason == "expire") = true
    ∧ ((cleanup st now).2.1.map fun d => d.key) = ((cleanup st now).2.2.map fun ev => ev.key)
    ∧ ("ttl" : String) ≠ "expire" := by
  refine ⟨?_, ?_, ?_, by decide⟩
  · induction st with
    | nil => simp [cleanup]
    | cons hd tl ih =>
        obtain ⟨k, en⟩ := hd
        simp only [cleanup]
        split
        · simpa using ih
        · simpa using ih
  · induction st with
    | nil => simp [cleanup]
    | cons hd tl ih =>
        obtain ⟨k, en⟩ := hd
        simp only [cleanup]
        split
        · simpa using ih
        · simpa using ih
  · induction st with
    | nil => simp [cleanup]
    | cons hd tl ih =>
        obtain ⟨k, en⟩ := hd
        simp only [cleanup]
        split
        · simpa using ih
        · simpa using ih

end NanoCache
